import Mathlib

/-!
Shallow embedding of `BoundedBTreeMap` from
`src/bounded-collections/src/bounded_btree_map.rs`.

The inner `BTreeMap<K, V>` (an external collaborator from the standard
library) is modelled as an association list whose entries are strictly
sorted under an ordering projection `π : K → Nat`.  Using a projection
rather than structural equality on `K` mirrors Rust's `Ord`-based key
comparison, where two structurally distinct keys may compare equal
(see the `unequal_eq_impl_insert_works` test in the source).  The bound
supplier `S : Get<u32>` is modelled as a plain `bound : Nat` argument,
since `S::get()` is a deterministic constant for a given instantiation.
-/

namespace BoundedBTreeMap

variable {K V T E : Type}

/-- entries of the inner map are strictly sorted by the ordering projection:
this is the representation invariant `BTreeMap` maintains internally. -/
abbrev KeySorted (π : K → Nat) (l : List (K × V)) : Prop :=
  l.Pairwise fun a b => π a.1 < π b.1

/-- key list of a map, in iteration (ascending) order. -/
def keysOf (m : List (K × V)) : List K :=
  m.map Prod.fst

/-- model of `BTreeMap::contains_key`: is some entry's key order-equal to `k`? -/
def containsKey (π : K → Nat) (k : K) (m : List (K × V)) : Bool :=
  m.any fun e => π e.1 == π k

/-- model of `BTreeMap::get_key_value`: first entry whose key is order-equal
to `k`, returning the stored key together with the value. -/
def getKeyValue (π : K → Nat) (k : K) : List (K × V) → Option (K × V)
  | [] => none
  | e :: rest => if π e.1 == π k then some e else getKeyValue π k rest

/-- model of `BTreeMap::get`: value of the first entry whose key is
order-equal to `k`. -/
def lookupValue (π : K → Nat) (k : K) (m : List (K × V)) : Option V :=
  (getKeyValue π k m).map Prod.snd

/-- model of `BTreeMap::insert`'s effect on the entries: replace the value in
place when an order-equal key is present (the stored key is kept), otherwise
splice the new entry at its sorted position. -/
def insertEntry (π : K → Nat) (k : K) (v : V) : List (K × V) → List (K × V)
  | [] => [(k, v)]
  | e :: rest =>
    if π k < π e.1 then (k, v) :: e :: rest
    else if π e.1 == π k then (e.1, v) :: rest
    else e :: insertEntry π k v rest

/-- model of `BTreeMap::remove_entry`'s return value and effect: the removed
entry (if any) together with the remaining entries. -/
def removeEntry (π : K → Nat) (k : K) : List (K × V) → Option (K × V) × List (K × V)
  | [] => (none, [])
  | e :: rest =>
    if π e.1 == π k then (some e, rest)
    else
      let r := removeEntry π k rest
      (r.1, e :: r.2)

/-- model of `BTreeMap::remove` (via `remove_entry`, dropping the key). -/
def remove (π : K → Nat) (k : K) (m : List (K × V)) : Option V × List (K × V) :=
  ((removeEntry π k m).1.map Prod.snd, (removeEntry π k m).2)

/-- model of `FromIterator for BTreeMap` (`.collect()`): insert the items of
the list one by one into an accumulator map. -/
def collectFrom (π : K → Nat) (acc : List (K × V)) : List (K × V) → List (K × V)
  | [] => acc
  | e :: rest => collectFrom π (insertEntry π e.1 e.2 acc) rest

/-- model of `BoundedBTreeMap::new`: the empty map. -/
def newMap : List (K × V) :=
  []

/-- model of `BoundedBTreeMap::clear`. -/
def clear (_m : List (K × V)) : List (K × V) :=
  []

/-- model of `BoundedBTreeMap::retain`: the predicate may mutate the kept
values, so it is modelled as returning a keep flag and the updated value. -/
def retain (f : K → V → Bool × V) (m : List (K × V)) : List (K × V) :=
  m.filterMap fun e =>
    let r := f e.1 e.2
    if r.1 then some (e.1, r.2) else none

/-- model of `BoundedBTreeMap::try_insert`: succeed when the map is below the
bound or the key is already present, returning the previous value and the
updated entries; otherwise return the rejected pair and leave the entries
untouched.  The second component is the post-state of the `&mut self`
receiver. -/
def tryInsert (bound : Nat) (π : K → Nat) (k : K) (v : V) (m : List (K × V)) :
    Except (K × V) (Option V) × List (K × V) :=
  if m.length < bound ∨ containsKey π k m = true then
    (.ok (lookupValue π k m), insertEntry π k v m)
  else
    (.error (k, v), m)

/-- model of `TryFrom<BTreeMap<K, V>> for BoundedBTreeMap`: accept the map
unchanged when its length is within the bound. -/
def tryFrom (bound : Nat) (m : List (K × V)) : Except Unit (List (K × V)) :=
  if m.length ≤ bound then .ok m else .error ()

/-- model of `TryCollect<BoundedBTreeMap<K, V, Bound>>` for an exact-size
iterator, given as the list of items it yields: reject when the declared
length exceeds the bound, otherwise collect into a map without rechecking. -/
def tryCollect (bound : Nat) (π : K → Nat) (l : List (K × V)) :
    Except String (List (K × V)) :=
  if bound < l.length then .error "iterator length too big"
  else .ok (collectFrom π [] l)

/-- model of `BoundedBTreeMap::try_mutate`: apply an arbitrary mutation to
the raw entries, then keep the result only if it is within the bound. -/
def tryMutate (bound : Nat) (mutate : List (K × V) → List (K × V))
    (m : List (K × V)) : Option (List (K × V)) :=
  let m' := mutate m
  if m'.length ≤ bound then some m' else none

/-- model of `BoundedBTreeMap::map`: transform every value (the closure sees
the key), then rebuild the inner map with `.collect()` and wrap it through
the unchecked constructor. -/
def map (π : K → Nat) (f : K → V → T) (m : List (K × V)) : List (K × T) :=
  collectFrom π [] (m.map fun e => (e.1, f e.1 e.2))

/-- model of the entry traversal done by `BoundedBTreeMap::try_map`'s
`collect::<Result<_, _>>()`: stop at the first failing transform and
return its error. -/
def tryMapEntries (g : K → V → Except E T) : List (K × V) → Except E (List (K × T))
  | [] => .ok []
  | e :: rest =>
    match g e.1 e.2 with
    | .error err => .error err
    | .ok t =>
      match tryMapEntries g rest with
      | .error err => .error err
      | .ok l => .ok ((e.1, t) :: l)

/-- model of `BoundedBTreeMap::try_map`: fallible value transformation,
collected into a rebuilt inner map on success. -/
def tryMap (π : K → Nat) (g : K → V → Except E T) (m : List (K × V)) :
    Except E (List (K × T)) :=
  (tryMapEntries g m).map (collectFrom π [])

/-- model of `BoundedBTreeMap::is_full`. -/
def isFull (bound : Nat) (m : List (K × V)) : Bool :=
  bound ≤ m.length

/-!
SCALE codec collaborators.  Byte streams are lists of naturals below 256; a
decoder consumes a stream and returns its result together with the
remaining (unconsumed) stream, modelling the mutable `Input` reader.
-/

/-- byte stream read by a codec `Input`. -/
abbrev ByteStream : Type :=
  List Nat

/-- state-threading decoder for one value: result plus remaining input. -/
abbrev Decoder (α : Type) : Type :=
  ByteStream → Except String α × ByteStream

/-- canonical SCALE compact encoding of a `u32` (four modes selected by the
value's magnitude, low two bits of the first byte carrying the mode). -/
def compactEncode (n : Nat) : ByteStream :=
  if n < 64 then [n * 4]
  else if n < 16384 then
    [(n * 4 + 1) % 256, (n * 4 + 1) / 256 % 256]
  else if n < 1073741824 then
    [(n * 4 + 2) % 256, (n * 4 + 2) / 256 % 256, (n * 4 + 2) / 65536 % 256,
      (n * 4 + 2) / 16777216 % 256]
  else
    [3, n % 256, n / 256 % 256, n / 65536 % 256, n / 16777216 % 256]

/-- SCALE compact decoding of a `u32`, enforcing canonical (minimal)
encodings exactly as `parity-scale-codec` does. -/
def compactDecode : Decoder Nat
  | [] => (.error "Not enough data to fill buffer", [])
  | b :: rest =>
    if b % 4 = 0 then (.ok (b / 4), rest)
    else if b % 4 = 1 then
      match rest with
      | [] => (.error "Not enough data to fill buffer", [])
      | b1 :: rest1 =>
        let x := (b + 256 * b1) / 4
        if 63 < x ∧ x ≤ 16383 then (.ok x, rest1)
        else (.error "out of range decoding Compact", rest1)
    else if b % 4 = 2 then
      match rest with
      | b1 :: b2 :: b3 :: rest3 =>
        let x := (b + 256 * b1 + 65536 * b2 + 16777216 * b3) / 4
        if 16383 < x ∧ x ≤ 1073741823 then (.ok x, rest3)
        else (.error "out of range decoding Compact", rest3)
      | _ => (.error "Not enough data to fill buffer", [])
    else
      if b / 4 = 0 then
        match rest with
        | b0 :: b1 :: b2 :: b3 :: rest4 =>
          let x := b0 + 256 * b1 + 65536 * b2 + 16777216 * b3
          if 1073741823 < x then (.ok x, rest4)
          else (.error "out of range decoding Compact", rest4)
        | _ => (.error "Not enough data to fill buffer", [])
      else (.error "unexpected prefix decoding Compact", rest)

/-- model of `Encode for u8`: a single byte, used to instantiate the generic
key/value codecs on concrete inputs. -/
def byteEncode (n : Nat) : ByteStream :=
  [n]

/-- model of `Decode for u8`: read a single byte. -/
def byteDecode : Decoder Nat
  | [] => (.error "Not enough data to fill buffer", [])
  | b :: rest => (.ok b, rest)

/-- payload of a `BTreeMap` encoding: each entry's key bytes followed by its
value bytes, in iteration (ascending key) order. -/
def encodePairs (encK : K → ByteStream) (encV : V → ByteStream)
    (m : List (K × V)) : ByteStream :=
  m.flatMap fun e => encK e.1 ++ encV e.2

/-- model of `Encode for BTreeMap`: compact length prefix followed by the
entries in ascending key order. -/
def btreeMapEncode (encK : K → ByteStream) (encV : V → ByteStream)
    (m : List (K × V)) : ByteStream :=
  compactEncode m.length ++ encodePairs encK encV m

/-- model of `Encode for PhantomData`: encodes to nothing. -/
def phantomDataEncode : ByteStream :=
  []

/-- model of the derived `Encode for BoundedBTreeMap`: the tuple struct's
fields are encoded in order — the inner map, then the `PhantomData<S>`
marker.  The bound is threaded only to mirror the `S` type parameter. -/
def boundedEncode (_bound : Nat) (encK : K → ByteStream) (encV : V → ByteStream)
    (m : List (K × V)) : ByteStream :=
  btreeMapEncode encK encV m ++ phantomDataEncode

/-- model of `Decode for BTreeMap`'s element loop: decode `n` key/value
pairs, inserting each into the accumulator map. -/
def btreeMapDecodeLoop (π : K → Nat) (decK : Decoder K) (decV : Decoder V) :
    Nat → ByteStream → List (K × V) → Except String (List (K × V)) × ByteStream
  | 0, input, acc => (.ok acc, input)
  | n + 1, input, acc =>
    match decK input with
    | (.error e, rem) => (.error e, rem)
    | (.ok k, input1) =>
      match decV input1 with
      | (.error e, rem) => (.error e, rem)
      | (.ok v, input2) => btreeMapDecodeLoop π decK decV n input2 (insertEntry π k v acc)

/-- model of `Decode for BTreeMap`: read the compact length prefix, then
decode that many key/value pairs into a fresh map. -/
def btreeMapDecode (π : K → Nat) (decK : Decoder K) (decV : Decoder V) :
    Decoder (List (K × V)) := fun input =>
  match compactDecode input with
  | (.error e, rem) => (.error e, rem)
  | (.ok len, rem) => btreeMapDecodeLoop π decK decV len rem []

/-- model of `Decode for BoundedBTreeMap`: decode the compact length prefix
and fail fast when it exceeds the bound; otherwise re-synthesize the prefix
in front of the remaining input (the `PrependCompactInput` adapter, modelled
from the spec: "presents a stream to the inner decoder that appears to start
fresh by re-synthesizing the prefix bytes", i.e. list concatenation) and
delegate to the `BTreeMap` decoder. -/
def boundedDecode (bound : Nat) (π : K → Nat) (decK : Decoder K)
    (decV : Decoder V) : Decoder (List (K × V)) := fun input =>
  match compactDecode input with
  | (.error e, rem) => (.error e, rem)
  | (.ok len, rem) =>
    if bound < len then (.error "BoundedBTreeMap exceeds its limit", rem)
    else btreeMapDecode π decK decV (compactEncode len ++ rem)

/-!
`MaxEncodedLen` collaborator pieces: `usize` saturating arithmetic and the
compact prefix's encoded size.
-/

/-- largest value of a 64-bit `usize`. -/
def usizeMax : Nat :=
  2 ^ 64 - 1

/-- model of `usize::saturating_add`. -/
def saturatingAdd (a b : Nat) : Nat :=
  min (a + b) usizeMax

/-- model of `usize::saturating_mul`. -/
def saturatingMul (a b : Nat) : Nat :=
  min (a * b) usizeMax

/-- model of `Compact(n).encoded_size()`: the length of the compact
encoding. -/
def compactEncodedSize (n : Nat) : Nat :=
  (compactEncode n).length

/-- model of `MaxEncodedLen for BoundedBTreeMap::max_encoded_len`, with the
key and value types' `max_encoded_len()` passed in as numbers. -/
def maxEncodedLen (bound kMax vMax : Nat) : Nat :=
  saturatingAdd (saturatingMul bound (saturatingAdd kMax vMax))
    (compactEncodedSize bound)

/-!
Serde deserialization, from `BTreeMapVisitor::visit_map` and
`Deserialize for BoundedBTreeMap`.  The `MapAccess` source is modelled as
the list of key/value pairs it yields in input order (duplicates allowed)
together with its optional size hint.
-/

/-- model of the `while let Some(key) = map.next_key()?` loop of
`BTreeMapVisitor::visit_map`: before each entry, fail if the accumulated
map already holds `bound` entries; otherwise insert the entry. -/
def visitMapLoop (π : K → Nat) (bound : Nat) :
    List (K × V) → List (K × V) → Except String (List (K × V))
  | [], values => .ok values
  | e :: rest, values =>
    if bound ≤ values.length then .error "map exceeds the size of the bounds"
    else visitMapLoop π bound rest (insertEntry π e.1 e.2 values)

/-- model of `BTreeMapVisitor::visit_map`: reject when the size hint exceeds
the bound, otherwise run the entry loop starting from the empty map. -/
def visitMap (π : K → Nat) (bound : Nat) (hint : Option Nat)
    (input : List (K × V)) : Except String (List (K × V)) :=
  if bound < hint.getD 0 then .error "map exceeds the size of the bounds"
  else visitMapLoop π bound input []

/-- model of `Deserialize for BoundedBTreeMap::deserialize`: visit the map,
then re-validate through `try_from`, mapping its failure to a descriptive
error. -/
def serdeDeserialize (π : K → Nat) (bound : Nat) (hint : Option Nat)
    (input : List (K × V)) : Except String (List (K × V)) :=
  match visitMap π bound hint input with
  | .error e => .error e
  | .ok values =>
    match tryFrom bound values with
    | .ok b => .ok b
    | .error _ => .error "failed to create a BoundedBTreeMap from the provided map"

/-!
Equality trait surface, from the two `PartialEq` impls.  Rust's `PartialEq`
on `K` and `V` is independent of `Ord`, so content equality is parametrized
by boolean equality tests.
-/

/-- model of `PartialEq for BTreeMap`: same length and pointwise-equal
entries in iteration order. -/
def btreeMapBEq (eqK : K → K → Bool) (eqV : V → V → Bool)
    (m₁ m₂ : List (K × V)) : Bool :=
  m₁.length == m₂.length &&
    (m₁.zip m₂).all fun p => eqK p.1.1 p.2.1 && eqV p.1.2 p.2.2

/-- model of `PartialEq<BoundedBTreeMap<K, V, S1>> for
BoundedBTreeMap<K, V, S2>`: `S1::get() == S2::get() && self.0 == other.0`. -/
def boundedBEq (bound₁ bound₂ : Nat) (eqK : K → K → Bool) (eqV : V → V → Bool)
    (m₁ m₂ : List (K × V)) : Bool :=
  bound₁ == bound₂ && btreeMapBEq eqK eqV m₁ m₂

/-- model of `PartialEq<BTreeMap<K, V>> for BoundedBTreeMap`: compares the
inner map against the raw map, with no bound involved. -/
def boundedBEqBTreeMap (eqK : K → K → Bool) (eqV : V → V → Bool)
    (m : List (K × V)) (raw : List (K × V)) : Bool :=
  btreeMapBEq eqK eqV m raw

/-- entry-list states publicly reachable through `BoundedBTreeMap`'s
constructors and checked mutation API, closed under arbitrary sequences of
operations; the value type may change along the way through `map` and
`try_map`. -/
inductive Reachable (K : Type) (π : K → Nat) (bound : Nat) :
    (V : Type) → List (K × V) → Prop
  | ofNew (V : Type) : Reachable K π bound V newMap
  | ofTryFrom {V : Type} (m b : List (K × V)) :
      KeySorted π m → tryFrom bound m = .ok b → Reachable K π bound V b
  | ofTryCollect {V : Type} (l b : List (K × V)) :
      tryCollect bound π l = .ok b → Reachable K π bound V b
  | ofDecode {V : Type} (decK : Decoder K) (decV : Decoder V)
      (input rem : ByteStream) (b : List (K × V)) :
      boundedDecode bound π decK decV input = (.ok b, rem) →
      Reachable K π bound V b
  | ofDeserialize {V : Type} (hint : Option Nat) (input b : List (K × V)) :
      serdeDeserialize π bound hint input = .ok b → Reachable K π bound V b
  | ofTryInsert {V : Type} (m : List (K × V)) (k : K) (v : V) :
      Reachable K π bound V m →
      Reachable K π bound V (tryInsert bound π k v m).2
  | ofRemove {V : Type} (m : List (K × V)) (k : K) :
      Reachable K π bound V m → Reachable K π bound V (remove π k m).2
  | ofRemoveEntry {V : Type} (m : List (K × V)) (k : K) :
      Reachable K π bound V m → Reachable K π bound V (removeEntry π k m).2
  | ofRetain {V : Type} (m : List (K × V)) (f : K → V → Bool × V) :
      Reachable K π bound V m → Reachable K π bound V (retain f m)
  | ofClear {V : Type} (m : List (K × V)) :
      Reachable K π bound V m → Reachable K π bound V (clear m)
  | ofTryMutate {V : Type} (m b : List (K × V))
      (mutate : List (K × V) → List (K × V)) :
      Reachable K π bound V m → KeySorted π (mutate m) →
      tryMutate bound mutate m = some b → Reachable K π bound V b
  | ofMap {V T : Type} (m : List (K × V)) (f : K → V → T) :
      Reachable K π bound V m → Reachable K π bound T (map π f m)
  | ofTryMap {V T E : Type} (m : List (K × V)) (g : K → V → Except E T)
      (b : List (K × T)) :
      Reachable K π bound V m → tryMap π g m = .ok b →
      Reachable K π bound T b

/-! Helper lemmas about the basic map operations. -/

theorem keySorted_key_lt {π : K → Nat} {e : K × V} {rest : List (K × V)}
    (h : KeySorted π (e :: rest)) : ∀ x ∈ rest, π e.1 < π x.1 :=
  (List.pairwise_cons.mp h).1

theorem keySorted_tail {π : K → Nat} {e : K × V} {rest : List (K × V)}
    (h : KeySorted π (e :: rest)) : KeySorted π rest :=
  (List.pairwise_cons.mp h).2

theorem key_of_mem_insertEntry {π : K → Nat} {k : K} {v : V}
    {m : List (K × V)} {x : K × V} (hx : x ∈ insertEntry π k v m) :
    π x.1 = π k ∨ ∃ y ∈ m, x.1 = y.1 := by
  induction m with
  | nil =>
    simp only [insertEntry, List.mem_singleton] at hx
    exact Or.inl (by rw [hx])
  | cons e rest ih =>
    simp only [insertEntry] at hx
    split at hx
    · rcases List.mem_cons.mp hx with h1 | h1
      · exact Or.inl (by rw [h1])
      · exact Or.inr ⟨x, h1, rfl⟩
    · split at hx
      · rcases List.mem_cons.mp hx with h1 | h1
        · exact Or.inr ⟨e, List.mem_cons_self e rest, by rw [h1]⟩
        · exact Or.inr ⟨x, List.mem_cons_of_mem e h1, rfl⟩
      · rcases List.mem_cons.mp hx with h1 | h1
        · exact Or.inr ⟨x, by rw [h1]; exact List.mem_cons_self e rest, rfl⟩
        · rcases ih h1 with h2 | ⟨y, hy, h2⟩
          · exact Or.inl h2
          · exact Or.inr ⟨y, List.mem_cons_of_mem e hy, h2⟩

theorem insertEntry_keySorted {π : K → Nat} {k : K} {v : V}
    {m : List (K × V)} (h : KeySorted π m) :
    KeySorted π (insertEntry π k v m) := by
  induction m with
  | nil => simp [insertEntry, KeySorted]
  | cons e rest ih =>
    have he := keySorted_key_lt h
    have hrest := keySorted_tail h
    simp only [insertEntry]
    split
    · rename_i hlt
      refine List.pairwise_cons.mpr ⟨?_, h⟩
      intro x hx
      rcases List.mem_cons.mp hx with h1 | h1
      · rw [h1]; exact hlt
      · exact lt_trans hlt (he x h1)
    · split
      · exact List.pairwise_cons.mpr ⟨he, hrest⟩
      · rename_i hge hne
        refine List.pairwise_cons.mpr ⟨?_, ih hrest⟩
        intro x hx
        have hk : π e.1 < π k := by
          simp only [beq_iff_eq] at hne
          omega
        rcases key_of_mem_insertEntry hx with h1 | ⟨y, hy, h1⟩
        · rw [h1]; exact hk
        · rw [h1]; exact he y hy

theorem insertEntry_length_le (π : K → Nat) (k : K) (v : V)
    (m : List (K × V)) : (insertEntry π k v m).length ≤ m.length + 1 := by
  induction m with
  | nil => simp [insertEntry]
  | cons e rest ih =>
    simp only [insertEntry]
    split
    · simp
    · split
      · simp
      · simp only [List.length_cons]
        omega

theorem containsKey_cons {π : K → Nat} {k : K} {e : K × V}
    {rest : List (K × V)} :
    containsKey π k (e :: rest) = ((π e.1 == π k) || containsKey π k rest) := by
  simp [containsKey]

theorem insertEntry_length_of_contains {π : K → Nat} {k : K} {v : V}
    {m : List (K × V)} (hs : KeySorted π m)
    (h : containsKey π k m = true) :
    (insertEntry π k v m).length = m.length := by
  induction m with
  | nil => simp [containsKey] at h
  | cons e rest ih =>
    have he := keySorted_key_lt hs
    rw [containsKey_cons, Bool.or_eq_true] at h
    simp only [insertEntry]
    split
    · rename_i hlt
      exfalso
      rcases h with h1 | h1
      · rw [beq_iff_eq] at h1; omega
      · rcases List.any_eq_true.mp h1 with ⟨y, hy, hyk⟩
        rw [beq_iff_eq] at hyk
        have := he y hy
        omega
    · split
      · simp
      · rename_i hge hne
        have h1 : containsKey π k rest = true := by
          rcases h with h1 | h1
          · exact absurd h1 hne
          · exact h1
        simp only [List.length_cons, ih (keySorted_tail hs) h1]

theorem insertEntry_length_of_not_contains {π : K → Nat} {k : K} {v : V}
    {m : List (K × V)} (h : containsKey π k m = false) :
    (insertEntry π k v m).length = m.length + 1 := by
  induction m with
  | nil => simp [insertEntry]
  | cons e rest ih =>
    rw [containsKey_cons, Bool.or_eq_false_iff] at h
    simp only [insertEntry]
    split
    · simp
    · split
      · rename_i heq
        rw [h.1] at heq
        exact absurd heq (by simp)
      · simp only [List.length_cons, ih h.2]

theorem getKeyValue_isSome_eq_containsKey (π : K → Nat) (k : K)
    (m : List (K × V)) : (getKeyValue π k m).isSome = containsKey π k m := by
  induction m with
  | nil => simp [getKeyValue, containsKey]
  | cons e rest ih =>
    rw [containsKey_cons]
    simp only [getKeyValue]
    split
    · rename_i heq
      simp [heq]
    · rename_i heq
      simp only [Bool.not_eq_true] at heq
      simp [heq, ih]

theorem removeEntry_length_le (π : K → Nat) (k : K) (m : List (K × V)) :
    (removeEntry π k m).2.length ≤ m.length := by
  induction m with
  | nil => simp [removeEntry]
  | cons e rest ih =>
    simp only [removeEntry]
    split
    · simp
    · simp only [List.length_cons]
      omega

theorem collectFrom_length_le (π : K → Nat) (l acc : List (K × V)) :
    (collectFrom π acc l).length ≤ acc.length + l.length := by
  induction l generalizing acc with
  | nil => simp [collectFrom]
  | cons e rest ih =>
    simp only [collectFrom]
    calc (collectFrom π (insertEntry π e.1 e.2 acc) rest).length
        ≤ (insertEntry π e.1 e.2 acc).length + rest.length := ih _
      _ ≤ acc.length + 1 + rest.length :=
          Nat.add_le_add_right (insertEntry_length_le π e.1 e.2 acc) _
      _ = acc.length + (e :: rest).length := by simp [List.length_cons]; omega

theorem collectFrom_keySorted {π : K → Nat} {acc : List (K × V)}
    (l : List (K × V)) (h : KeySorted π acc) :
    KeySorted π (collectFrom π acc l) := by
  induction l generalizing acc with
  | nil => exact h
  | cons e rest ih => exact ih (insertEntry_keySorted h)

theorem insertEntry_append_of_lt {π : K → Nat} {k : K} {v : V}
    {acc : List (K × V)} (h : ∀ e ∈ acc, π e.1 < π k) :
    insertEntry π k v acc = acc ++ [(k, v)] := by
  induction acc with
  | nil => simp [insertEntry]
  | cons e rest ih =>
    have he : π e.1 < π k := h e (List.mem_cons_self e rest)
    simp only [insertEntry]
    rw [if_neg (by omega), if_neg (by simp; omega)]
    rw [ih fun x hx => h x (List.mem_cons_of_mem e hx)]
    simp

theorem collectFrom_of_sorted {π : K → Nat} :
    ∀ (l acc : List (K × V)), KeySorted π (acc ++ l) →
      collectFrom π acc l = acc ++ l := by
  intro l
  induction l with
  | nil => intro acc _; simp [collectFrom]
  | cons e rest ih =>
    intro acc h
    have hlt : ∀ x ∈ acc, π x.1 < π e.1 := by
      intro x hx
      have := (List.pairwise_append.mp h).2.2 x hx e (List.mem_cons_self e rest)
      exact this
    simp only [collectFrom]
    rw [insertEntry_append_of_lt hlt]
    rw [ih (acc ++ [e]) (by simpa using h)]
    simp

theorem keySorted_iff_keys {π : K → Nat} {l : List (K × V)} :
    KeySorted π l ↔ (keysOf l).Pairwise fun a b => π a < π b := by
  simp [KeySorted, keysOf, List.pairwise_map]

theorem removeEntry_keys_sublist (π : K → Nat) (k : K) (m : List (K × V)) :
    List.Sublist (keysOf (removeEntry π k m).2) (keysOf m) := by
  induction m with
  | nil => simp [removeEntry, keysOf]
  | cons e rest ih =>
    simp only [removeEntry]
    split
    · simp only [keysOf, List.map_cons]
      exact List.sublist_cons_self _ _
    · simp only [keysOf, List.map_cons]
      exact List.Sublist.cons₂ _ ih

theorem retain_keys_sublist (f : K → V → Bool × V) (m : List (K × V)) :
    List.Sublist (keysOf (retain f m)) (keysOf m) := by
  induction m with
  | nil => simp [retain, keysOf]
  | cons e rest ih =>
    by_cases hkeep : (f e.1 e.2).1 = true
    · simp only [retain, List.filterMap_cons, hkeep, if_true, keysOf,
        List.map_cons]
      exact List.Sublist.cons₂ _ ih
    · simp only [retain, List.filterMap_cons, hkeep, if_false, keysOf,
        List.map_cons]
      exact List.Sublist.cons _ ih

theorem getKeyValue_mem {π : K → Nat} {k : K} {m : List (K × V)} {p : K × V}
    (h : getKeyValue π k m = some p) : p ∈ m ∧ π p.1 = π k := by
  induction m with
  | nil => simp [getKeyValue] at h
  | cons e rest ih =>
    simp only [getKeyValue] at h
    split at h
    · rename_i heq
      have hep : e = p := Option.some_inj.mp h
      subst hep
      exact ⟨List.mem_cons_self e rest, beq_iff_eq.mp heq⟩
    · rcases ih h with ⟨h1, h2⟩
      exact ⟨List.mem_cons_of_mem e h1, h2⟩

theorem getKeyValue_insertEntry_of_found {π : K → Nat} {k k₀ : K} {v v₀ : V}
    {m : List (K × V)} (hs : KeySorted π m)
    (h : getKeyValue π k m = some (k₀, v₀)) :
    getKeyValue π k (insertEntry π k v m) = some (k₀, v) := by
  induction m with
  | nil => simp [getKeyValue] at h
  | cons e rest ih =>
    have he := keySorted_key_lt hs
    simp only [getKeyValue] at h
    by_cases heq : (π e.1 == π k) = true
    · rw [if_pos heq] at h
      have hek : e.1 = k₀ := by
        have heq2 := Option.some_inj.mp h
        rw [heq2]
      rw [beq_iff_eq] at heq
      simp only [insertEntry]
      rw [if_neg (by omega), if_pos (by rw [beq_iff_eq]; exact heq)]
      simp only [getKeyValue]
      rw [if_pos (by rw [beq_iff_eq]; exact heq), hek]
    · rw [if_neg heq] at h
      obtain ⟨hmem, hkey⟩ := getKeyValue_mem h
      have hlt : π e.1 < π k := by
        have := he _ hmem
        omega
      simp only [insertEntry]
      rw [if_neg (by omega), if_neg heq]
      simp only [getKeyValue]
      rw [if_neg heq]
      exact ih (keySorted_tail hs) h

theorem getKeyValue_insertEntry_of_not_contains {π : K → Nat} {k : K} {v : V}
    {m : List (K × V)} (h : containsKey π k m = false) :
    getKeyValue π k (insertEntry π k v m) = some (k, v) := by
  induction m with
  | nil => simp [insertEntry, getKeyValue]
  | cons e rest ih =>
    rw [containsKey_cons, Bool.or_eq_false_iff] at h
    simp only [insertEntry]
    split
    · simp [getKeyValue]
    · split
      · rename_i heq
        rw [h.1] at heq
        exact absurd heq (by simp)
      · simp only [getKeyValue]
        rw [if_neg (by simp [h.1])]
        exact ih h.2

/-! Helper lemmas about the serde visitor loop. -/

theorem visitMapLoop_ok {π : K → Nat} {bound : Nat} :
    ∀ (l acc : List (K × V)),
      (∀ i, i < l.length → (collectFrom π acc (l.take i)).length < bound) →
      visitMapLoop π bound l acc = .ok (collectFrom π acc l) := by
  intro l
  induction l with
  | nil => intro acc _; simp [visitMapLoop, collectFrom]
  | cons e rest ih =>
    intro acc h
    have h0 : acc.length < bound := by
      have := h 0 (by simp)
      simpa [collectFrom] using this
    simp only [visitMapLoop, collectFrom]
    rw [if_neg (by omega)]
    apply ih
    intro i hi
    have := h (i + 1) (by simp only [List.length_cons]; omega)
    simpa [collectFrom, List.take_succ_cons] using this

theorem visitMapLoop_error {π : K → Nat} {bound : Nat} :
    ∀ (l acc : List (K × V)),
      (∃ i, i < l.length ∧ bound ≤ (collectFrom π acc (l.take i)).length) →
      visitMapLoop π bound l acc = .error "map exceeds the size of the bounds" := by
  intro l
  induction l with
  | nil =>
    intro acc h
    obtain ⟨i, hi, _⟩ := h
    simp at hi
  | cons e rest ih =>
    intro acc h
    obtain ⟨i, hi, hb⟩ := h
    simp only [visitMapLoop]
    by_cases h0 : bound ≤ acc.length
    · rw [if_pos h0]
    · rw [if_neg h0]
      apply ih
      cases i with
      | zero =>
        simp only [List.take_zero, collectFrom] at hb
        omega
      | succ j =>
        refine ⟨j, by simp only [List.length_cons] at hi; omega, ?_⟩
        simpa [collectFrom, List.take_succ_cons] using hb

/-! Helper lemmas about the fallible transform traversal. -/

theorem tryMapEntries_ok_keys {g : K → V → Except E T} :
    ∀ {m : List (K × V)} {l : List (K × T)},
      tryMapEntries g m = .ok l → keysOf l = keysOf m := by
  intro m
  induction m with
  | nil =>
    intro l h
    simp only [tryMapEntries, Except.ok.injEq] at h
    rw [← h]
    rfl
  | cons e rest ih =>
    intro l h
    simp only [tryMapEntries] at h
    cases hg : g e.1 e.2 with
    | error err => rw [hg] at h; exact absurd h (by simp)
    | ok t =>
      rw [hg] at h
      cases hr : tryMapEntries g rest with
      | error err => rw [hr] at h; exact absurd h (by simp)
      | ok l' =>
        rw [hr] at h
        simp only [Except.ok.injEq] at h
        rw [← h]
        simp only [keysOf, List.map_cons]
        have := ih hr
        simp only [keysOf] at this
        rw [this]

theorem tryMapEntries_first_error {g : K → V → Except E T} {err : E} :
    ∀ (pre : List (K × V)) (e : K × V) (post : List (K × V)),
      (∀ x ∈ pre, ∃ t, g x.1 x.2 = .ok t) → g e.1 e.2 = .error err →
      tryMapEntries g (pre ++ e :: post) = .error err := by
  intro pre
  induction pre with
  | nil =>
    intro e post _ he
    simp [tryMapEntries, he]
  | cons p pre' ih =>
    intro e post hpre he
    obtain ⟨t, ht⟩ := hpre p (List.mem_cons_self p pre')
    have hrec := ih e post (fun x hx => hpre x (List.mem_cons_of_mem p hx)) he
    simp [tryMapEntries, ht, hrec]

/-! Helper lemmas about the decode loop. -/

theorem btreeMapDecodeLoop_ok_length {π : K → Nat} {decK : Decoder K}
    {decV : Decoder V} :
    ∀ (n : Nat) (input : ByteStream) (acc b : List (K × V)) (rem : ByteStream),
      btreeMapDecodeLoop π decK decV n input acc = (.ok b, rem) →
      b.length ≤ acc.length + n := by
  intro n
  induction n with
  | zero =>
    intro input acc b rem h
    simp only [btreeMapDecodeLoop, Prod.mk.injEq, Except.ok.injEq] at h
    rw [← h.1]
    omega
  | succ n ih =>
    intro input acc b rem h
    simp only [btreeMapDecodeLoop] at h
    split at h
    · exact absurd h (by simp)
    · rename_i k input1 heq1
      split at h
      · exact absurd h (by simp)
      · rename_i v input2 heq2
        have h1 := ih input2 (insertEntry π k v acc) b rem h
        have h2 := insertEntry_length_le π k v acc
        omega

/-! Helper lemmas about the compact codec. -/

theorem compactDecode_compactEncode {n : Nat} (hn : n < 4294967296)
    (extra : ByteStream) :
    compactDecode (compactEncode n ++ extra) = (.ok n, extra) := by
  by_cases h1 : n < 64
  · simp only [compactEncode, if_pos h1, List.cons_append, List.nil_append,
      compactDecode]
    rw [if_pos (by omega)]
    simp only [Prod.mk.injEq, Except.ok.injEq]
    exact ⟨by omega, trivial⟩
  · by_cases h2 : n < 16384
    · simp only [compactEncode, if_neg h1, if_pos h2, List.cons_append,
        List.nil_append, compactDecode]
      rw [if_neg (by omega), if_pos (by omega)]
      have hrec : (n * 4 + 1) % 256 + 256 * ((n * 4 + 1) / 256 % 256) =
          n * 4 + 1 := by omega
      rw [hrec]
      rw [if_pos (by constructor <;> omega)]
      simp only [Prod.mk.injEq, Except.ok.injEq]
      exact ⟨by omega, trivial⟩
    · by_cases h3 : n < 1073741824
      · simp only [compactEncode, if_neg h1, if_neg h2, if_pos h3,
          List.cons_append, List.nil_append, compactDecode]
        rw [if_neg (by omega), if_neg (by omega), if_pos (by omega)]
        have hrec : (n * 4 + 2) % 256 + 256 * ((n * 4 + 2) / 256 % 256) +
            65536 * ((n * 4 + 2) / 65536 % 256) +
            16777216 * ((n * 4 + 2) / 16777216 % 256) = n * 4 + 2 := by
          omega
        rw [hrec]
        rw [if_pos (by constructor <;> omega)]
        simp only [Prod.mk.injEq, Except.ok.injEq]
        exact ⟨by omega, trivial⟩
      · simp only [compactEncode, if_neg h1, if_neg h2, if_neg h3,
          List.cons_append, List.nil_append, compactDecode]
        have c0 : ¬(3 % 4 = 0) := by omega
        have c1 : ¬(3 % 4 = 1) := by omega
        have c2 : ¬(3 % 4 = 2) := by omega
        rw [if_neg c0, if_neg c1, if_neg c2]
        simp only [if_true]
        have hrec : n % 256 + 256 * (n / 256 % 256) + 65536 * (n / 65536 % 256) +
            16777216 * (n / 16777216 % 256) = n := by omega
        rw [hrec]
        rw [if_pos (by omega)]

/-! Helper lemmas about payload decoding. -/

theorem btreeMapDecodeLoop_payload {π : K → Nat} {decK : Decoder K}
    {decV : Decoder V} {encK : K → ByteStream} {encV : V → ByteStream}
    (hK : ∀ a rest, decK (encK a ++ rest) = (.ok a, rest))
    (hV : ∀ a rest, decV (encV a ++ rest) = (.ok a, rest)) :
    ∀ (l acc : List (K × V)) (rest : ByteStream),
      btreeMapDecodeLoop π decK decV l.length
          (encodePairs encK encV l ++ rest) acc
        = (.ok (collectFrom π acc l), rest) := by
  intro l
  induction l with
  | nil =>
    intro acc rest
    simp [btreeMapDecodeLoop, encodePairs, collectFrom]
  | cons e tail ih =>
    intro acc rest
    have hshape : encodePairs encK encV (e :: tail) ++ rest =
        encK e.1 ++ (encV e.2 ++ (encodePairs encK encV tail ++ rest)) := by
      simp [encodePairs, List.append_assoc]
    rw [List.length_cons, hshape]
    simp only [btreeMapDecodeLoop]
    rw [hK e.1 _]
    simp only []
    rw [hV e.2 _]
    simp only [collectFrom]
    exact ih (insertEntry π e.1 e.2 acc) rest

/-! Sortedness preservation, threading the inner `BTreeMap` representation
invariant through every operation. -/

theorem keySorted_of_keys_sublist {π : K → Nat} {l₁ l₂ : List (K × V)}
    (hsub : List.Sublist (keysOf l₁) (keysOf l₂)) (h : KeySorted π l₂) :
    KeySorted π l₁ := by
  rw [keySorted_iff_keys] at h ⊢
  exact List.Pairwise.sublist hsub h

theorem removeEntry_keySorted {π : K → Nat} {k : K} {m : List (K × V)}
    (h : KeySorted π m) : KeySorted π (removeEntry π k m).2 :=
  keySorted_of_keys_sublist (removeEntry_keys_sublist π k m) h

theorem retain_keySorted {π : K → Nat} {f : K → V → Bool × V}
    {m : List (K × V)} (h : KeySorted π m) : KeySorted π (retain f m) :=
  keySorted_of_keys_sublist (retain_keys_sublist f m) h

theorem btreeMapDecodeLoop_ok_keySorted {π : K → Nat} {decK : Decoder K}
    {decV : Decoder V} :
    ∀ (n : Nat) (input : ByteStream) (acc b : List (K × V)) (rem : ByteStream),
      btreeMapDecodeLoop π decK decV n input acc = (.ok b, rem) →
      KeySorted π acc → KeySorted π b := by
  intro n
  induction n with
  | zero =>
    intro input acc b rem h hacc
    simp only [btreeMapDecodeLoop, Prod.mk.injEq, Except.ok.injEq] at h
    rw [← h.1]
    exact hacc
  | succ n ih =>
    intro input acc b rem h hacc
    simp only [btreeMapDecodeLoop] at h
    split at h
    · exact absurd h (by simp)
    · rename_i k input1 heq1
      split at h
      · exact absurd h (by simp)
      · rename_i v input2 heq2
        exact ih input2 _ b rem h (insertEntry_keySorted hacc)

theorem visitMapLoop_ok_keySorted {π : K → Nat} {bound : Nat} :
    ∀ (l acc b : List (K × V)),
      visitMapLoop π bound l acc = .ok b → KeySorted π acc → KeySorted π b := by
  intro l
  induction l with
  | nil =>
    intro acc b h hacc
    simp only [visitMapLoop, Except.ok.injEq] at h
    rw [← h]
    exact hacc
  | cons e rest ih =>
    intro acc b h hacc
    simp only [visitMapLoop] at h
    split at h
    · exact absurd h (by simp)
    · exact ih _ b h (insertEntry_keySorted hacc)

/-! Dissection of the bounded decoder's success case. -/

theorem compactDecode_compactEncode_large {n : Nat} (hn : ¬n < 4294967296)
    {extra : ByteStream} {len' : Nat} {rem' : ByteStream}
    (h : compactDecode (compactEncode n ++ extra) = (.ok len', rem')) :
    len' < 4294967296 := by
  have h1 : ¬n < 64 := by omega
  have h2 : ¬n < 16384 := by omega
  have h3 : ¬n < 1073741824 := by omega
  simp only [compactEncode, if_neg h1, if_neg h2, if_neg h3, List.cons_append,
    List.nil_append, compactDecode] at h
  have c0 : ¬(3 % 4 = 0) := by omega
  have c1 : ¬(3 % 4 = 1) := by omega
  have c2 : ¬(3 % 4 = 2) := by omega
  rw [if_neg c0, if_neg c1, if_neg c2] at h
  simp only [if_true] at h
  split at h
  · simp only [Prod.mk.injEq, Except.ok.injEq] at h
    omega
  · exact absurd h (by simp)

theorem boundedDecode_ok_inv {bound : Nat} {π : K → Nat} {decK : Decoder K}
    {decV : Decoder V} {input : ByteStream} {b : List (K × V)}
    {rem : ByteStream}
    (h : boundedDecode bound π decK decV input = (.ok b, rem)) :
    b.length ≤ bound ∧ KeySorted π b := by
  unfold boundedDecode at h
  split at h
  · exact absurd h (by simp)
  · rename_i len rem1 heq1
    split at h
    · exact absurd h (by simp)
    · rename_i hlen
      unfold btreeMapDecode at h
      split at h
      · exact absurd h (by simp)
      · rename_i len' rem2 heq2
        have hlength := btreeMapDecodeLoop_ok_length len' rem2 [] b rem h
        have hsorted := btreeMapDecodeLoop_ok_keySorted len' rem2 [] b rem h
          List.Pairwise.nil
        refine ⟨?_, hsorted⟩
        simp only [List.length_nil, Nat.zero_add] at hlength
        by_cases h32 : len < 4294967296
        · have := compactDecode_compactEncode h32 rem1
          rw [this] at heq2
          simp only [Prod.mk.injEq, Except.ok.injEq] at heq2
          omega
        · have := compactDecode_compactEncode_large h32 heq2
          omega

theorem serdeDeserialize_ok_inv {π : K → Nat} {bound : Nat}
    {hint : Option Nat} {input b : List (K × V)}
    (h : serdeDeserialize π bound hint input = .ok b) :
    b.length ≤ bound ∧ KeySorted π b := by
  unfold serdeDeserialize at h
  split at h
  · exact absurd h (by simp)
  · rename_i values heq1
    split at h
    · rename_i b' heq2
      have hb : b' = b := by
        simpa using h
      unfold tryFrom at heq2
      split at heq2
      · rename_i hle
        have hv : values = b' := by
          simpa using heq2
        unfold visitMap at heq1
        split at heq1
        · exact absurd heq1 (by simp)
        · have hs := visitMapLoop_ok_keySorted input [] values heq1
            List.Pairwise.nil
          rw [← hb, ← hv]
          exact ⟨hle, hs⟩
      · exact absurd heq2 (by simp)
    · exact absurd h (by simp)

/-- every reachable state is a valid `BTreeMap` (sorted) and within the
bound; proved by induction over the public API derivation. -/
theorem reachable_inv {π : K → Nat} {bound : Nat} {V : Type}
    {b : List (K × V)} (h : Reachable K π bound V b) :
    KeySorted π b ∧ b.length ≤ bound := by
  induction h with
  | ofNew V => exact ⟨List.Pairwise.nil, by simp [newMap]⟩
  | ofTryFrom m b hs h =>
    unfold tryFrom at h
    split at h
    · rename_i hle
      have hmb : m = b := by simpa using h
      rw [← hmb]
      exact ⟨hs, hle⟩
    · exact absurd h (by simp)
  | ofTryCollect l b h =>
    unfold tryCollect at h
    split at h
    · exact absurd h (by simp)
    · rename_i hlen
      have hcb : collectFrom π [] l = b := by simpa using h
      rw [← hcb]
      refine ⟨collectFrom_keySorted l List.Pairwise.nil, ?_⟩
      have := collectFrom_length_le π l []
      simp only [List.length_nil, Nat.zero_add] at this
      omega
  | ofDecode decK decV input rem b h =>
    have hinv := boundedDecode_ok_inv h
    exact ⟨hinv.2, hinv.1⟩
  | ofDeserialize hint input b h =>
    have hinv := serdeDeserialize_ok_inv h
    exact ⟨hinv.2, hinv.1⟩
  | ofTryInsert m k v hr ih =>
    obtain ⟨hs, hlen⟩ := ih
    by_cases hcond : m.length < bound ∨ containsKey π k m = true
    · have heq : (tryInsert bound π k v m).2 = insertEntry π k v m := by
        unfold tryInsert
        rw [if_pos hcond]
      rw [heq]
      refine ⟨insertEntry_keySorted hs, ?_⟩
      rcases hcond with hlt | hcont
      · have := insertEntry_length_le π k v m
        omega
      · rw [insertEntry_length_of_contains hs hcont]
        exact hlen
    · have heq : (tryInsert bound π k v m).2 = m := by
        unfold tryInsert
        rw [if_neg hcond]
      rw [heq]
      exact ⟨hs, hlen⟩
  | ofRemove m k hr ih =>
    obtain ⟨hs, hlen⟩ := ih
    exact ⟨removeEntry_keySorted hs,
      le_trans (removeEntry_length_le π k m) hlen⟩
  | ofRemoveEntry m k hr ih =>
    obtain ⟨hs, hlen⟩ := ih
    exact ⟨removeEntry_keySorted hs,
      le_trans (removeEntry_length_le π k m) hlen⟩
  | ofRetain m f hr ih =>
    obtain ⟨hs, hlen⟩ := ih
    refine ⟨retain_keySorted hs, ?_⟩
    have hsub := (retain_keys_sublist f m).length_le
    simp only [keysOf, List.length_map] at hsub
    omega
  | ofClear m hr ih => exact ⟨List.Pairwise.nil, by simp [clear]⟩
  | ofTryMutate m b mutate hr hs h ih =>
    simp only [tryMutate] at h
    split at h
    · rename_i hle
      have hmb : mutate m = b := by simpa using h
      rw [← hmb]
      exact ⟨hs, hle⟩
    · exact absurd h (by simp)
  | ofMap m f hr ih =>
    obtain ⟨hs, hlen⟩ := ih
    refine ⟨collectFrom_keySorted _ List.Pairwise.nil, ?_⟩
    have := collectFrom_length_le π (m.map fun e => (e.1, f e.1 e.2)) []
    simp only [List.length_nil, Nat.zero_add, List.length_map] at this
    simp only [map]
    omega
  | ofTryMap m g b hr h ih =>
    obtain ⟨hs, hlen⟩ := ih
    unfold tryMap at h
    cases hte : tryMapEntries g m with
    | error err => rw [hte] at h; exact absurd h (by simp [Except.map])
    | ok l' =>
      rw [hte] at h
      simp only [Except.map, Except.ok.injEq] at h
      rw [← h]
      refine ⟨collectFrom_keySorted _ List.Pairwise.nil, ?_⟩
      have hkeys := tryMapEntries_ok_keys hte
      have hlen' : l'.length = m.length := by
        have := congrArg List.length hkeys
        simpa [keysOf] using this
      have := collectFrom_length_le π l' []
      simp only [List.length_nil, Nat.zero_add] at this
      omega

/-! Further dissection helpers used by the claim theorems. -/

theorem boundedDecode_eq_of_compactDecode_ok {bound : Nat} {π : K → Nat}
    {decK : Decoder K} {decV : Decoder V} {input : ByteStream} {len : Nat}
    {rest : ByteStream} (hpre : compactDecode input = (.ok len, rest)) :
    boundedDecode bound π decK decV input =
      if bound < len then (.error "BoundedBTreeMap exceeds its limit", rest)
      else btreeMapDecode π decK decV (compactEncode len ++ rest) := by
  unfold boundedDecode
  split
  · rename_i e rem heq
    rw [hpre] at heq
    exact absurd heq (by simp)
  · rename_i len' rem' heq
    rw [hpre] at heq
    simp only [Prod.mk.injEq, Except.ok.injEq] at heq
    rw [← heq.1, ← heq.2]

theorem serdeDeserialize_eq_ok {π : K → Nat} {bound : Nat} {hint : Option Nat}
    {input values : List (K × V)}
    (hvm : visitMap π bound hint input = .ok values)
    (hle : values.length ≤ bound) :
    serdeDeserialize π bound hint input = .ok values := by
  unfold serdeDeserialize
  split
  · rename_i e heq
    rw [hvm] at heq
    exact absurd heq (by simp)
  · rename_i values' heq
    rw [hvm] at heq
    simp only [Except.ok.injEq] at heq
    rw [← heq]
    split
    · rename_i b heq2
      unfold tryFrom at heq2
      rw [if_pos hle] at heq2
      have hb : values = b := by simpa using heq2
      rw [hb]
    · rename_i e heq2
      unfold tryFrom at heq2
      rw [if_pos hle] at heq2
      exact absurd heq2 (by simp)

theorem serdeDeserialize_eq_error {π : K → Nat} {bound : Nat}
    {hint : Option Nat} {input : List (K × V)} {msg : String}
    (hvm : visitMap π bound hint input = .error msg) :
    serdeDeserialize π bound hint input = .error msg := by
  unfold serdeDeserialize
  split
  · rename_i e heq
    rw [hvm] at heq
    simp only [Except.error.injEq] at heq
    rw [heq]
  · rename_i values heq
    rw [hvm] at heq
    exact absurd heq (by simp)

theorem tryMapEntries_ok_of_forall {g : K → V → Except E T} :
    ∀ {m : List (K × V)}, (∀ e ∈ m, ∃ t, g e.1 e.2 = .ok t) →
      ∃ l, tryMapEntries g m = .ok l := by
  intro m
  induction m with
  | nil => intro _; exact ⟨[], rfl⟩
  | cons e rest ih =>
    intro h
    obtain ⟨t, ht⟩ := h e (List.mem_cons_self e rest)
    obtain ⟨l, hl⟩ := ih fun x hx => h x (List.mem_cons_of_mem e hx)
    exact ⟨(e.1, t) :: l, by simp [tryMapEntries, ht, hl]⟩

theorem collectFrom_length_le_of_prefix_lt {π : K → Nat} {bound : Nat} :
    ∀ (l acc : List (K × V)), acc.length ≤ bound →
      (∀ i, i < l.length → (collectFrom π acc (l.take i)).length < bound) →
      (collectFrom π acc l).length ≤ bound := by
  intro l
  induction l with
  | nil =>
    intro acc hacc _
    simpa [collectFrom] using hacc
  | cons e rest ih =>
    intro acc hacc h
    have h0 : acc.length < bound := by
      simpa [collectFrom] using h 0 (by simp)
    simp only [collectFrom]
    apply ih
    · have := insertEntry_length_le π e.1 e.2 acc
      omega
    · intro i hi
      have := h (i + 1) (by simp only [List.length_cons]; omega)
      simpa [collectFrom, List.take_succ_cons] using this

/-! Claim theorems. -/

/-- Claim C1: for every publicly reachable `BoundedBTreeMap` instance — any
state produced by `new`, `try_from`, `try_collect`, `decode` or
`deserialize`, closed under arbitrary sequences of `try_insert`, `remove`,
`remove_entry`, `retain`, `clear`, `try_mutate`, `map` and `try_map` — the
invariant `size() ≤ bound()` holds immediately after construction and
after every operation. -/
theorem size_le_bound_of_reachable {π : K → Nat} {bound : Nat} {V : Type}
    {b : List (K × V)} (h : Reachable K π bound V b) : b.length ≤ bound :=
  (reachable_inv h).2

/-- Claim C1 witness: the invariant instantiated on the concrete derivation
`new` followed by `try_insert`. -/
theorem size_le_bound_of_reachable_witness :
    ((tryInsert 3 (fun n => n) 1 10 (newMap : List (Nat × Nat))).2).length ≤ 3 :=
  size_le_bound_of_reachable
    (Reachable.ofTryInsert newMap 1 10 (Reachable.ofNew Nat))

/-- Claim C2: `try_insert` overwrites in place and returns the previous
value when the key is present (count unchanged); inserts and returns `none`
when the key is absent and the map is below the bound; and fails with the
rejected pair, leaving the map untouched, when the key is absent and the
map is at (or beyond) the bound. -/
theorem tryInsert_spec {π : K → Nat} {bound : Nat} {m : List (K × V)}
    (k : K) (v : V) (hs : KeySorted π m) :
    (containsKey π k m = true →
      ∃ v₀, lookupValue π k m = some v₀ ∧
        tryInsert bound π k v m = (.ok (some v₀), insertEntry π k v m) ∧
        (insertEntry π k v m).length = m.length) ∧
    (containsKey π k m = false → m.length < bound →
      tryInsert bound π k v m = (.ok none, insertEntry π k v m) ∧
      (insertEntry π k v m).length = m.length + 1 ∧
      getKeyValue π k (insertEntry π k v m) = some (k, v)) ∧
    (containsKey π k m = false → bound ≤ m.length →
      tryInsert bound π k v m = (.error (k, v), m)) := by
  refine ⟨?_, ?_, ?_⟩
  · intro hcont
    have hsome : (getKeyValue π k m).isSome = true := by
      rw [getKeyValue_isSome_eq_containsKey]
      exact hcont
    obtain ⟨p, hp⟩ := Option.isSome_iff_exists.mp hsome
    refine ⟨p.2, by simp [lookupValue, hp], ?_,
      insertEntry_length_of_contains hs hcont⟩
    unfold tryInsert
    rw [if_pos (Or.inr hcont)]
    simp [lookupValue, hp]
  · intro hcont hlt
    refine ⟨?_, insertEntry_length_of_not_contains hcont,
      getKeyValue_insertEntry_of_not_contains hcont⟩
    have hnone : lookupValue π k m = none := by
      unfold lookupValue
      cases hgv : getKeyValue π k m with
      | none => rfl
      | some p =>
        have hq := getKeyValue_isSome_eq_containsKey π k m
        rw [hgv, hcont] at hq
        exact absurd hq (by simp)
    unfold tryInsert
    rw [if_pos (Or.inl hlt), hnone]
  · intro hcont hge
    unfold tryInsert
    rw [if_neg ?_]
    rintro (hlt | hc)
    · omega
    · rw [hcont] at hc
      exact absurd hc (by simp)

/-- Claim C2 witness: inserting a fresh key into a map below its bound. -/
theorem tryInsert_spec_witness :
    tryInsert 2 (fun n => n) 3 7 [((1 : Nat), (5 : Nat))] =
      (.ok none, insertEntry (fun n => n) 3 7 [((1 : Nat), (5 : Nat))]) :=
  ((tryInsert_spec 3 7 (by decide)).2.1 (by decide) (by decide)).1

/-- Claim C10: a successful `try_insert` on an already-present key replaces
only the stored value; the stored key object is retained even when the
argument key is a distinct value that merely compares equal under the
ordering. -/
theorem tryInsert_retains_stored_key {π : K → Nat} {bound : Nat}
    {m : List (K × V)} {k k₀ : K} {v₀ : V} (v : V) (hs : KeySorted π m)
    (hfound : getKeyValue π k m = some (k₀, v₀)) :
    tryInsert bound π k v m = (.ok (some v₀), insertEntry π k v m) ∧
    getKeyValue π k (insertEntry π k v m) = some (k₀, v) := by
  have hcont : containsKey π k m = true := by
    rw [← getKeyValue_isSome_eq_containsKey, hfound]
    rfl
  constructor
  · unfold tryInsert
    rw [if_pos (Or.inr hcont)]
    simp [lookupValue, hfound]
  · exact getKeyValue_insertEntry_of_found hs hfound

/-- Claim C10 witness: the full map `{(0, false) ↦ 5}` with bound 1 accepts
`try_insert((0, true), 6)` because `(0, true)` compares equal to the stored
key under the first-component ordering; afterwards the stored key is still
`(0, false)` and only the value changed. -/
theorem tryInsert_retains_stored_key_witness :
    tryInsert 1 Prod.fst ((0 : Nat), true) 6 [(((0 : Nat), false), (5 : Nat))] =
      (.ok (some 5),
        insertEntry Prod.fst ((0 : Nat), true) 6
          [(((0 : Nat), false), (5 : Nat))]) ∧
    getKeyValue Prod.fst ((0 : Nat), true)
        (insertEntry Prod.fst ((0 : Nat), true) 6
          [(((0 : Nat), false), (5 : Nat))]) =
      some ((0, false), 6) :=
  tryInsert_retains_stored_key 6 (by decide) (by decide)

/-- Claim C3: when the leading compact-length prefix declares an element
count greater than the bound, `decode` fails with the fixed error
`"BoundedBTreeMap exceeds its limit"` and only the prefix has been consumed
from the input; when the declared count is within the bound, the prefix is
re-synthesized in front of the remaining input and decoding is delegated to
the unbounded map's decoder (equivalently, its element loop runs directly
on the remaining input). -/
theorem boundedDecode_bound_check {bound : Nat} {π : K → Nat}
    (decK : Decoder K) (decV : Decoder V) {input : ByteStream} {len : Nat}
    {rest : ByteStream} (hpre : compactDecode input = (.ok len, rest)) :
    (bound < len →
      boundedDecode bound π decK decV input =
        (.error "BoundedBTreeMap exceeds its limit", rest)) ∧
    (len ≤ bound → len < 4294967296 →
      boundedDecode bound π decK decV input =
        btreeMapDecode π decK decV (compactEncode len ++ rest) ∧
      boundedDecode bound π decK decV input =
        btreeMapDecodeLoop π decK decV len rest []) := by
  constructor
  · intro hgt
    rw [boundedDecode_eq_of_compactDecode_ok hpre, if_pos hgt]
  · intro hle h32
    have hdel : boundedDecode bound π decK decV input =
        btreeMapDecode π decK decV (compactEncode len ++ rest) := by
      rw [boundedDecode_eq_of_compactDecode_ok hpre, if_neg (by omega)]
    refine ⟨hdel, ?_⟩
    rw [hdel]
    unfold btreeMapDecode
    rw [compactDecode_compactEncode h32 rest]

/-- Claim C3 witness: with bound 1 and an input declaring 2 elements, decode
fails with the fixed error leaving exactly the payload unread; with bound 3
the same prefix delegates to the element loop on the payload. -/
theorem boundedDecode_bound_check_witness :
    boundedDecode 1 (fun n => n) byteDecode byteDecode [8, 9, 9, 9] =
      (.error "BoundedBTreeMap exceeds its limit", [9, 9, 9]) ∧
    boundedDecode 3 (fun n => n) byteDecode byteDecode [8, 1, 10, 2, 20] =
      btreeMapDecodeLoop (fun n => n) byteDecode byteDecode 2 [1, 10, 2, 20] [] :=
  ⟨(boundedDecode_bound_check byteDecode byteDecode
      (rfl : compactDecode [8, 9, 9, 9] = (.ok 2, [9, 9, 9]))).1 (by decide),
    ((boundedDecode_bound_check byteDecode byteDecode
      (rfl : compactDecode [8, 1, 10, 2, 20] = (.ok 2, [1, 10, 2, 20]))).2
      (by decide) (by decide)).2⟩

/-- Claim C4: decoding the bytes produced by encoding a bounded map whose
content is within the bound yields the original map, with the whole input
consumed; the key and value codecs are assumed to round-trip. -/
theorem boundedBTreeMap_roundtrip {π : K → Nat} {bound : Nat}
    {encK : K → ByteStream} {decK : Decoder K} {encV : V → ByteStream}
    {decV : Decoder V}
    (hK : ∀ a rest, decK (encK a ++ rest) = (.ok a, rest))
    (hV : ∀ a rest, decV (encV a ++ rest) = (.ok a, rest))
    {m : List (K × V)} (hs : KeySorted π m) (hlen : m.length ≤ bound)
    (h32 : m.length < 4294967296) :
    boundedDecode bound π decK decV (boundedEncode bound encK encV m) =
      (.ok m, []) := by
  have henc : boundedEncode bound encK encV m =
      compactEncode m.length ++ encodePairs encK encV m := by
    simp [boundedEncode, btreeMapEncode, phantomDataEncode]
  have hpre : compactDecode (boundedEncode bound encK encV m) =
      (.ok m.length, encodePairs encK encV m) := by
    rw [henc]
    exact compactDecode_compactEncode h32 _
  rw [boundedDecode_eq_of_compactDecode_ok hpre, if_neg (by omega)]
  unfold btreeMapDecode
  rw [compactDecode_compactEncode h32 (encodePairs encK encV m)]
  show btreeMapDecodeLoop π decK decV m.length (encodePairs encK encV m) [] =
    (.ok m, [])
  have hloop := @btreeMapDecodeLoop_payload K V π decK decV encK encV hK hV
    m [] []
  rw [List.append_nil] at hloop
  rw [hloop, collectFrom_of_sorted m [] (by simpa using hs)]
  simp

/-- Claim C4 witness: the two-entry map `{1 ↦ 10, 2 ↦ 20}` with bound 3
round-trips through encode and decode. -/
theorem boundedBTreeMap_roundtrip_witness :
    boundedDecode 3 (fun n => n) byteDecode byteDecode
        (boundedEncode 3 byteEncode byteEncode
          [((1 : Nat), (10 : Nat)), (2, 20)]) =
      (.ok [(1, 10), (2, 20)], []) :=
  boundedBTreeMap_roundtrip (fun _ _ => rfl) (fun _ _ => rfl)
    (by decide) (by decide) (by decide)

/-- Claim C5: the derived encoding of a bounded map is byte-identical to
the unbounded map's encoding of the same content (the `PhantomData` bound
marker encodes to nothing), so the bound value never influences the
encoded bytes. -/
theorem boundedEncode_eq_btreeMapEncode (bound₁ bound₂ : Nat)
    (encK : K → ByteStream) (encV : V → ByteStream) (m : List (K × V)) :
    boundedEncode bound₁ encK encV m = btreeMapEncode encK encV m ∧
    boundedEncode bound₁ encK encV m = boundedEncode bound₂ encK encV m := by
  constructor
  · simp [boundedEncode, phantomDataEncode]
  · rfl

/-- Claim C9: `max_encoded_len()` equals
`bound × (max key size + max value size) + size of the compact prefix for
the bound`, whenever the saturating `usize` arithmetic does not saturate. -/
theorem maxEncodedLen_formula (bound kMax vMax : Nat)
    (h2 : kMax + vMax ≤ usizeMax)
    (h : bound * (kMax + vMax) + compactEncodedSize bound ≤ usizeMax) :
    maxEncodedLen bound kMax vMax =
      bound * (kMax + vMax) + compactEncodedSize bound := by
  have hmul : bound * (kMax + vMax) ≤ usizeMax :=
    le_trans (Nat.le_add_right _ _) h
  unfold maxEncodedLen saturatingAdd saturatingMul
  rw [min_eq_left h2, min_eq_left hmul, min_eq_left h]

/-- Claim C9 witness: bound 4 with 4-byte keys and 4-byte values gives
`4 × 8 + 1 = 33`. -/
theorem maxEncodedLen_formula_witness :
    maxEncodedLen 4 4 4 = 4 * (4 + 4) + compactEncodedSize 4 :=
  maxEncodedLen_formula 4 4 4 (by decide) (by decide)

/-- Claim C6 counterexample: two bounded maps with identical (empty)
contents but bound values 1 and 2 compare unequal, so cross-configuration
equality does not ignore the bound values. -/
theorem boundedBEq_counterexample :
    boundedBEq 1 2 (fun a b : Nat => a == b) (fun a b : Nat => a == b)
        ([] : List (Nat × Nat)) [] = false ∧
    btreeMapBEq (fun a b : Nat => a == b) (fun a b : Nat => a == b)
        ([] : List (Nat × Nat)) [] = true := by
  constructor <;> rfl

/-- Claim C6 (amended): equality between two bounded maps of different
bound configurations compares the bound values and the contents — it holds
exactly when `S1::get() == S2::get()` and the inner maps are equal, and is
false whenever the bound values differ; only comparison against the raw
unbounded `BTreeMap` type compares contents alone. -/
theorem boundedBEq_spec (bound₁ bound₂ : Nat) (eqK : K → K → Bool)
    (eqV : V → V → Bool) (m₁ m₂ raw : List (K × V)) :
    (boundedBEq bound₁ bound₂ eqK eqV m₁ m₂ = true ↔
      bound₁ = bound₂ ∧ btreeMapBEq eqK eqV m₁ m₂ = true) ∧
    (bound₁ ≠ bound₂ → boundedBEq bound₁ bound₂ eqK eqV m₁ m₂ = false) ∧
    boundedBEqBTreeMap eqK eqV m₁ raw = btreeMapBEq eqK eqV m₁ raw := by
  refine ⟨?_, ?_, rfl⟩
  · simp [boundedBEq]
  · intro hne
    have hb : (bound₁ == bound₂) = false := by
      simpa using hne
    simp [boundedBEq, hb]

/-- Claim C6 witness: bound values 1 and 2 with equal one-entry contents
compare unequal. -/
theorem boundedBEq_spec_witness :
    boundedBEq 1 2 (fun a b : Nat => a == b) (fun a b : Nat => a == b)
      [((5 : Nat), (0 : Nat))] [(5, 0)] = false :=
  (boundedBEq_spec 1 2 (fun a b : Nat => a == b) (fun a b : Nat => a == b)
    [((5 : Nat), (0 : Nat))] [(5, 0)] [] ).2.1 (by decide)

/-- Claim C7: `map` preserves the key set (hence the size) exactly;
`try_map` does the same when the transform succeeds on every entry, and
returns the first failing entry's error unchanged, without consulting the
transform on the entries after the failure. -/
theorem map_tryMap_spec {π : K → Nat} {m : List (K × V)}
    (f : K → V → T) (g : K → V → Except E T) (hs : KeySorted π m) :
    (keysOf (map π f m) = keysOf m ∧ (map π f m).length = m.length) ∧
    ((∀ e ∈ m, ∃ t, g e.1 e.2 = .ok t) →
      ∃ m', tryMap π g m = .ok m' ∧ keysOf m' = keysOf m ∧
        m'.length = m.length) ∧
    (∀ (pre : List (K × V)) (e : K × V) (post : List (K × V)) (err : E),
      m = pre ++ e :: post → (∀ x ∈ pre, ∃ t, g x.1 x.2 = .ok t) →
      g e.1 e.2 = .error err → tryMap π g m = .error err) := by
  have hms : KeySorted π (m.map fun e => (e.1, f e.1 e.2)) := by
    simpa [List.pairwise_map] using hs
  refine ⟨?_, ?_, ?_⟩
  · have hcol : map π f m = m.map fun e => (e.1, f e.1 e.2) := by
      unfold map
      have hc := collectFrom_of_sorted (m.map fun e => (e.1, f e.1 e.2)) []
        (by simpa using hms)
      simpa using hc
    rw [hcol]
    constructor
    · simp [keysOf, List.map_map, Function.comp]
    · simp
  · intro hall
    obtain ⟨l, hl⟩ := tryMapEntries_ok_of_forall hall
    have hkeys := tryMapEntries_ok_keys hl
    have hsl : KeySorted π l := by
      rw [keySorted_iff_keys, hkeys, ← keySorted_iff_keys]
      exact hs
    have hcl : collectFrom π [] l = l := by
      have hc := collectFrom_of_sorted l [] (by simpa using hsl)
      simpa using hc
    refine ⟨l, ?_, hkeys, ?_⟩
    · unfold tryMap
      rw [hl]
      simp [Except.map, hcl]
    · have hlen := congrArg List.length hkeys
      simpa [keysOf] using hlen
  · intro pre e post err hm hpre herr
    unfold tryMap
    rw [hm, tryMapEntries_first_error pre e post hpre herr]
    rfl

/-- Claim C7 witness: on `{1 ↦ 10, 2 ↦ 20}`, `map (v ↦ v + 1)` keeps the
key list `[1, 2]`. -/
theorem map_tryMap_spec_witness :
    keysOf (map (fun n => n) (fun _ v => v + 1)
        [((1 : Nat), (10 : Nat)), (2, 20)]) =
      keysOf [((1 : Nat), (10 : Nat)), (2, 20)] ∧
    (map (fun n => n) (fun _ v => v + 1)
        [((1 : Nat), (10 : Nat)), (2, 20)]).length =
      ([((1 : Nat), (10 : Nat)), (2, 20)]).length :=
  (map_tryMap_spec (fun _ v => v + 1)
    (fun _ v => (.ok (v * 2) : Except String Nat)) (by decide)).1

/-- Claim C8 counterexample: with bound 1, the input `[(0, 10), (0, 11)]`
carries a single distinct key, yet deserialization fails when the second
(duplicate) key arrives while the accumulated map already holds one entry —
so an input with at most `bound` distinct keys need not deserialize
successfully. -/
theorem serdeDeserialize_counterexample :
    serdeDeserialize (fun n => n) 1 none [((0 : Nat), (10 : Nat)), (0, 11)] =
      .error "map exceeds the size of the bounds" ∧
    (collectFrom (fun n => n) [] [((0 : Nat), (10 : Nat)), (0, 11)]).length
      = 1 := by
  constructor <;> rfl

/-- Claim C8 (amended): text deserialization fails immediately when the
size hint exceeds the bound; otherwise entries are read and inserted with
the running count checked before every entry, failing with the descriptive
bound error as soon as any key arrives while the accumulated map already
holds `bound` entries — even a duplicate key that would not grow the map —
and succeeding (with the collected entries) whenever every proper prefix
accumulates fewer than `bound` distinct keys; in particular any input with
at most `bound` total entries deserializes successfully. -/
theorem serdeDeserialize_spec (π : K → Nat) (bound : Nat) (hint : Option Nat)
    (input : List (K × V)) :
    (∀ h, bound < h → ∀ inp : List (K × V),
      serdeDeserialize π bound (some h) inp =
        .error "map exceeds the size of the bounds") ∧
    (hint.getD 0 ≤ bound →
      (∀ i, i < input.length →
        (collectFrom π [] (input.take i)).length < bound) →
      serdeDeserialize π bound hint input = .ok (collectFrom π [] input)) ∧
    (hint.getD 0 ≤ bound →
      (∃ i, i < input.length ∧
        bound ≤ (collectFrom π [] (input.take i)).length) →
      serdeDeserialize π bound hint input =
        .error "map exceeds the size of the bounds") ∧
    (hint.getD 0 ≤ bound → input.length ≤ bound →
      serdeDeserialize π bound hint input = .ok (collectFrom π [] input)) := by
  have hsucc : hint.getD 0 ≤ bound →
      (∀ i, i < input.length →
        (collectFrom π [] (input.take i)).length < bound) →
      serdeDeserialize π bound hint input = .ok (collectFrom π [] input) := by
    intro hhint hpre
    have hvm : visitMap π bound hint input = .ok (collectFrom π [] input) := by
      unfold visitMap
      rw [if_neg (by omega)]
      exact visitMapLoop_ok input [] hpre
    exact serdeDeserialize_eq_ok hvm
      (collectFrom_length_le_of_prefix_lt input [] (Nat.zero_le _) hpre)
  refine ⟨?_, hsucc, ?_, ?_⟩
  · intro h hgt inp
    apply serdeDeserialize_eq_error
    unfold visitMap
    rw [if_pos (by simpa using hgt)]
  · intro hhint hex
    apply serdeDeserialize_eq_error
    unfold visitMap
    rw [if_neg (by omega)]
    exact visitMapLoop_error input [] hex
  · intro hhint hlen
    apply hsucc hhint
    intro i hi
    have hle := collectFrom_length_le π (input.take i) []
    simp only [List.length_nil, Nat.zero_add] at hle
    have htake : (input.take i).length = i := by
      rw [List.length_take]
      omega
    omega

/-- Claim C8 witness: deserializing three entries with size hint 3 into a
bound-6 target succeeds with the collected entries. -/
theorem serdeDeserialize_spec_witness :
    serdeDeserialize (fun n => n) 6 (some 3)
        [((0 : Nat), (100 : Nat)), (1, 101), (2, 102)] =
      .ok (collectFrom (fun n => n) []
        [((0 : Nat), (100 : Nat)), (1, 101), (2, 102)]) :=
  (serdeDeserialize_spec (fun n => n) 6 (some 3)
    [((0 : Nat), (100 : Nat)), (1, 101), (2, 102)]).2.2.2
    (by decide) (by decide)

end BoundedBTreeMap
